import Mathlib

/-!
Shallow embedding of the Verilator simulation harness in
src/0-minimal/verilog/verilator/sim.cpp: the Memory subsystem with
byte-strobe writes and binary image loading, the signature extractor, and
the main simulation loop with one-step bus latency, halt-sentinel
detection, time budget, VCD tracing and progress reporting.  Machine
integers are modelled as Nat, with 32-bit truncation explicit where the
C++ types make it matter.  The simulated core is a black box, so runs are
parameterised by a script giving the core output signals at each step.
-/

set_option maxHeartbeats 1000000

namespace MyCPU

/-- Sentinel value compared against the watched word in the halt check. -/
def HALT_SENTINEL : Nat := 0xBABECAFE

/-- Number of initial steps during which reset stays asserted. -/
def RESET_CYCLES : Nat := 2

/-- Byte write strobes: the array of four booleans passed to Memory.write. -/
structure Strobe where
  s0 : Bool
  s1 : Bool
  s2 : Bool
  s3 : Bool

/-- Indexing into the strobe array. -/
def Strobe.get (s : Strobe) : Nat → Bool
  | 0 => s.s0
  | 1 => s.s1
  | 2 => s.s2
  | _ => s.s3

/-- The all-lanes-enabled strobe. -/
def allStrobes : Strobe := ⟨true, true, true, true⟩

namespace Memory

/-- Embeds Memory::read: the byte address is divided by 4; an out-of-range
word index returns 0, otherwise the stored word is returned. -/
def read (memory : List Nat) (address : Nat) : Nat :=
  let a := address / 4
  if a ≥ memory.length then 0
  else memory.getD a 0

/-- Embeds the mask-building loop of Memory::write: for each set strobe,
0xFF shifted into the corresponding byte lane is OR-ed into the mask. -/
def write_mask (write_strobe : Strobe) : Nat :=
  (List.range 4).foldl
    (fun mask i =>
      if write_strobe.get i then mask ||| (0xFF <<< (i * 8)) else mask) 0

/-- Embeds Memory::write: out-of-range writes are discarded; otherwise the
strobed byte lanes of value replace those lanes of the stored word.  The
C++ complement of the 32-bit mask is the XOR with 0xFFFFFFFF. -/
def write (memory : List Nat) (address : Nat) (value : Nat)
    (write_strobe : Strobe) : List Nat :=
  let a := address / 4
  if a ≥ memory.length then memory
  else
    let mask := write_mask write_strobe
    memory.set a
      ((memory.getD a 0 &&& (0xFFFFFFFF ^^^ mask)) ||| (value &&& mask))

/-- Condition under which Memory::write emits its diagnostic on the error
stream: the word index is out of range. -/
def write_diag (memory : List Nat) (address : Nat) : Bool :=
  decide (address / 4 ≥ memory.length)

/-- Value of the 32-bit word assembled from bytes 4i .. 4i+3 of the file
image, little endian, as Memory::load_binary reads it into memory. -/
def imageWord (bytes : List Nat) (i : Nat) : Nat :=
  bytes.getD (4 * i) 0 + bytes.getD (4 * i + 1) 0 * 0x100
    + bytes.getD (4 * i + 2) 0 * 0x10000
    + bytes.getD (4 * i + 3) 0 * 0x1000000

/-- Embeds the copy loop of Memory::load_binary: words 0 .. n-1 of the
image are stored at word indices base .. base+n-1, in ascending order. -/
def load_words (memory : List Nat) (bytes : List Nat) (base : Nat) :
    Nat → List Nat
  | 0 => memory
  | n + 1 =>
    (load_words memory bytes base n).set (n + base) (imageWord bytes n)

/-- Failure cases of Memory::load_binary. -/
inductive LoadError
  | could_not_open
  | too_large
deriving DecidableEq

/-- Embeds Memory::load_binary.  The file is an optional byte list, none
modelling a file that cannot be opened.  Loading fails if the file cannot
be opened or if load_address plus the file size exceeds the byte capacity;
otherwise it copies size/4 complete words starting at word index
load_address/4, dropping partial trailing bytes. -/
def load_binary (memory : List Nat) (file : Option (List Nat))
    (load_address : Nat) : Except LoadError (List Nat) :=
  match file with
  | none => Except.error LoadError.could_not_open
  | some bytes =>
    if load_address + bytes.length > memory.length * 4 then
      Except.error LoadError.too_large
    else
      Except.ok
        (load_words memory bytes (load_address / 4) (bytes.length / 4))

end Memory

/-- Lowercase hexadecimal digit characters, as produced by the %08x
format used in Simulator::generate_signature. -/
def hexChar (n : Nat) : Char :=
  if n < 10 then Char.ofNat (48 + n) else Char.ofNat (87 + n)

/-- Eight-digit lowercase hexadecimal rendering of a 32-bit word, the
snprintf output for format %08x.  The digits depend only on the low 32
bits, matching the uint32_t argument type. -/
def toHex8 (w : Nat) : String :=
  String.mk [hexChar (w / 0x10000000 % 16), hexChar (w / 0x1000000 % 16),
    hexChar (w / 0x100000 % 16), hexChar (w / 0x10000 % 16),
    hexChar (w / 0x1000 % 16), hexChar (w / 0x100 % 16),
    hexChar (w / 0x10 % 16), hexChar (w % 16)]

/-- Numeric value of a lowercase hexadecimal digit character. -/
def hexCharVal (c : Char) : Nat :=
  if c.toNat ≥ 97 then c.toNat - 87 else c.toNat - 48

/-- Numeric value of a string of lowercase hexadecimal digits. -/
def hexVal (str : String) : Nat :=
  str.data.foldl (fun a c => a * 16 + hexCharVal c) 0

/-- Embeds the loop of Simulator::generate_signature: one line per word
address from addr (inclusive) up to sig_end (exclusive), stepping by 4. -/
def signature_lines (memory : List Nat) (sig_end : Nat) (addr : Nat) :
    List String :=
  if h : addr < sig_end then
    toHex8 (Memory.read memory addr)
      :: signature_lines memory sig_end (addr + 4)
  else []
termination_by sig_end - addr
decreasing_by omega

/-- Embeds Simulator::generate_signature without the file handling: the
list of lines written to the signature file. -/
def generate_signature (memory : List Nat)
    (signature_begin signature_end : Nat) : List String :=
  signature_lines memory signature_end signature_begin

/-- Outputs of the simulated core after one eval: the signal values the
harness reads back, plus whether the model has signalled finish. -/
structure CoreOut where
  io_instruction_address : Nat
  io_memory_bundle_address : Nat
  io_memory_bundle_write_enable : Bool
  io_memory_bundle_write_strobe : Strobe
  io_memory_bundle_write_data : Nat
  gotFinish : Bool

/-- Run configuration together with the scripted core. -/
structure Config where
  script : Nat → CoreOut
  halt_address : Nat
  max_sim_time : Nat
  tracing : Bool

/-- State of Simulator::run between loop iterations. -/
structure SimState where
  mem : List Nat
  main_time : Nat
  clock : Bool
  reset : Bool
  data_memory_read_word : Nat
  inst_memory_read_word : Nat
  finished : Bool
  halted : Bool
  vcd : List Nat
  progress : List Nat

/-- Condition of the progress report in Simulator::run. -/
def progressCond (max_sim_time main_time : Nat) : Bool :=
  decide (main_time > 0) && decide (max_sim_time > 10)
    && decide (main_time % (max_sim_time / 10) = 0)

/-- State before the loop: reset asserted, clock low, read words zeroed, a
first VCD snapshot dumped at time 0 when tracing is on; the initial eval
may already signal finish. -/
def initState (cfg : Config) (mem0 : List Nat) : SimState :=
  { mem := mem0
    main_time := 0
    clock := false
    reset := true
    data_memory_read_word := 0
    inst_memory_read_word := 0
    finished := (cfg.script 0).gotFinish
    halted := false
    vcd := if cfg.tracing then [0] else []
    progress := [] }

/-- One iteration of the main loop of Simulator::run: advance time, toggle
the clock, de-assert reset after RESET_CYCLES, present the previous read
words as the core inputs, eval (scripted), issue the two memory reads
against the pre-write memory, service a strobed write when write enable is
set, dump a VCD snapshot, check the halt sentinel, and report progress
unless the halt break was taken. -/
def simStep (cfg : Config) (s : SimState) : SimState :=
  let t := s.main_time + 1
  let out := cfg.script t
  let data_read := Memory.read s.mem out.io_memory_bundle_address
  let inst_read := Memory.read s.mem out.io_instruction_address
  let mem1 :=
    if out.io_memory_bundle_write_enable then
      Memory.write s.mem out.io_memory_bundle_address
        out.io_memory_bundle_write_data out.io_memory_bundle_write_strobe
    else s.mem
  let halt_now :=
    decide (cfg.halt_address ≠ 0)
      && decide (Memory.read mem1 cfg.halt_address = HALT_SENTINEL)
  { mem := mem1
    main_time := t
    clock := !s.clock
    reset := if t > RESET_CYCLES then false else s.reset
    data_memory_read_word := data_read
    inst_memory_read_word := inst_read
    finished := s.finished || out.gotFinish
    halted := halt_now
    vcd := if cfg.tracing then s.vcd ++ [t] else s.vcd
    progress :=
      if !halt_now && progressCond cfg.max_sim_time t then s.progress ++ [t]
      else s.progress }

/-- Fueled form of the while loop of Simulator::run.  Each iteration
consumes one unit of fuel and advances main_time by one, so fuel equal to
max_sim_time started from main_time 0 reproduces the loop exactly. -/
def runAux (cfg : Config) : Nat → SimState → SimState
  | 0, s => s
  | fuel + 1, s =>
    if s.main_time < cfg.max_sim_time && !s.finished then
      let s1 := simStep cfg s
      if s1.halted then s1 else runAux cfg fuel s1
    else s

/-- Embeds Simulator::run (without the post-run signature dumping): the
loop run from the initial state with fuel equal to the time budget. -/
def run (cfg : Config) (mem0 : List Nat) : SimState :=
  runAux cfg cfg.max_sim_time (initState cfg mem0)

/-- Trace of loop states with no stopping condition applied: states n is
the state after n iterations of the loop body. -/
def states (cfg : Config) (mem0 : List Nat) : Nat → SimState
  | 0 => initState cfg mem0
  | n + 1 => simStep cfg (states cfg mem0 n)

/-- The pair of values assigned to the core inputs
io_memory_bundle_read_data and io_instruction during the loop iteration
whose main_time is t. -/
def inputsPresented (cfg : Config) (mem0 : List Nat) (t : Nat) : Nat × Nat :=
  ((states cfg mem0 (t - 1)).data_memory_read_word,
   (states cfg mem0 (t - 1)).inst_memory_read_word)

/-- Results of the two Memory reads issued during the loop iteration whose
main_time is u: they use the addresses the core asserts at step u against
the memory as it stood before that iteration could write. -/
def readsIssued (cfg : Config) (mem0 : List Nat) (u : Nat) : Nat × Nat :=
  (Memory.read (states cfg mem0 (u - 1)).mem
      (cfg.script u).io_memory_bundle_address,
   Memory.read (states cfg mem0 (u - 1)).mem
      (cfg.script u).io_instruction_address)

/-- Byte lane i of a 32-bit word. -/
def byteLane (w : Nat) (i : Nat) : Nat := (w >>> (8 * i)) &&& 0xFF

/-! Bitwise helper lemmas for the strobe-masked write. -/

lemma testBit_ffffffff (k : Nat) : (0xFFFFFFFF : Nat).testBit k = decide (k < 32) := by
  have h : (0xFFFFFFFF : Nat) = 2 ^ 32 - 1 := by norm_num
  rw [h, Nat.testBit_two_pow_sub_one]

lemma land_ffffffff {v : Nat} (h : v < 2 ^ 32) : v &&& 0xFFFFFFFF = v := by
  apply Nat.eq_of_testBit_eq
  intro i
  rw [Nat.testBit_land, testBit_ffffffff]
  by_cases hi : i < 32
  · simp [hi]
  · have hv : v.testBit i = false :=
      Nat.testBit_eq_false_of_lt
        (lt_of_lt_of_le h (Nat.pow_le_pow_right (by norm_num) (by omega)))
    simp [hi, hv]

lemma testBit_byteLane (w i j : Nat) :
    (byteLane w i).testBit j = (w.testBit (8 * i + j) && decide (j < 8)) := by
  have h : (0xFF : Nat) = 2 ^ 8 - 1 := by norm_num
  rw [byteLane, Nat.testBit_land, Nat.testBit_shiftRight, h,
    Nat.testBit_two_pow_sub_one]

lemma byteLane_merge_of_mask_true (old v M i : Nat) (hi : i < 4)
    (hM : ∀ j, j < 8 → M.testBit (8 * i + j) = true) :
    byteLane ((old &&& (0xFFFFFFFF ^^^ M)) ||| (v &&& M)) i = byteLane v i := by
  apply Nat.eq_of_testBit_eq
  intro j
  rw [testBit_byteLane, testBit_byteLane]
  by_cases hj : j < 8
  · rw [Nat.testBit_lor, Nat.testBit_land, Nat.testBit_land, Nat.testBit_xor,
      testBit_ffffffff, hM j hj]
    have h32 : 8 * i + j < 32 := by omega
    simp [h32]
  · simp [hj]

lemma byteLane_merge_of_mask_false (old v M i : Nat) (hi : i < 4)
    (hM : ∀ j, j < 8 → M.testBit (8 * i + j) = false) :
    byteLane ((old &&& (0xFFFFFFFF ^^^ M)) ||| (v &&& M)) i = byteLane old i := by
  apply Nat.eq_of_testBit_eq
  intro j
  rw [testBit_byteLane, testBit_byteLane]
  by_cases hj : j < 8
  · rw [Nat.testBit_lor, Nat.testBit_land, Nat.testBit_land, Nat.testBit_xor,
      testBit_ffffffff, hM j hj]
    have h32 : 8 * i + j < 32 := by omega
    simp [h32]
  · simp [hj]

/-- Reading back the word just written, before simplifying the mask. -/
lemma read_write (m : List Nat) (address value : Nat) (s : Strobe)
    (h : address / 4 < m.length) :
    Memory.read (Memory.write m address value s) address =
      ((Memory.read m address &&& (0xFFFFFFFF ^^^ Memory.write_mask s))
        ||| (value &&& Memory.write_mask s)) := by
  have hr : Memory.read m address = m.getD (address / 4) 0 := by
    unfold Memory.read
    simp only []
    rw [if_neg (by omega)]
  rw [hr]
  unfold Memory.write
  simp only []
  rw [if_neg (by omega)]
  unfold Memory.read
  simp only []
  rw [if_neg (by simp only [List.length_set]; omega)]
  rw [List.getD_eq_getElem?_getD, List.getElem?_set_self (by simpa using h)]
  rfl

/-- C1: for every byte address whose word index is within capacity, a
write followed by a read at the same address returns exactly the written
32-bit value when all four strobes are set; for an arbitrary strobe
pattern, each byte lane whose strobe is set takes the corresponding byte
of the written value and each unset lane keeps its pre-write byte. -/
theorem write_read_lanes (m : List Nat) (address value : Nat) (s : Strobe)
    (h : address / 4 < m.length) :
    (value < 2 ^ 32 →
      Memory.read (Memory.write m address value allStrobes) address = value) ∧
    (∀ i, i < 4 →
      byteLane (Memory.read (Memory.write m address value s) address) i =
        if s.get i then byteLane value i
        else byteLane (Memory.read m address) i) := by
  constructor
  · intro hv
    rw [read_write m address value allStrobes h]
    have hmask : Memory.write_mask allStrobes = 0xFFFFFFFF := by decide
    rw [hmask]
    have hx : (0xFFFFFFFF : Nat) ^^^ 0xFFFFFFFF = 0 := by decide
    rw [hx, Nat.and_zero, Nat.zero_or, land_ffffffff hv]
  · intro i hi
    rw [read_write m address value s h]
    obtain ⟨s0, s1, s2, s3⟩ := s
    cases s0 <;> cases s1 <;> cases s2 <;> cases s3 <;> interval_cases i <;>
      simp only [Strobe.get, if_true, if_false, Bool.false_eq_true] <;>
      first
        | exact byteLane_merge_of_mask_true _ _ _ _ (by omega)
            (by intro j hj; interval_cases j <;> decide)
        | exact byteLane_merge_of_mask_false _ _ _ _ (by omega)
            (by intro j hj; interval_cases j <;> decide)

/-- Closed instance of write_read_lanes at a concrete in-range address. -/
theorem write_read_lanes_check :
    ((0 : Nat) / 4 < ([5, 6] : List Nat).length ∧ (0x11223344 : Nat) < 2 ^ 32) ∧
    Memory.read (Memory.write [5, 6] 0 0x11223344 allStrobes) 0 = 0x11223344 :=
  ⟨⟨by decide, by decide⟩,
    (write_read_lanes [5, 6] 0 0x11223344 allStrobes (by decide)).1 (by decide)⟩

/-- C5: for every byte address whose word index is out of range, read
returns 0, write leaves the stored words unchanged, and the diagnostic
condition of the write holds. -/
theorem oob_read_write (m : List Nat) (address value : Nat) (s : Strobe)
    (h : m.length ≤ address / 4) :
    Memory.read m address = 0 ∧ Memory.write m address value s = m ∧
      Memory.write_diag m address = true := by
  refine ⟨?_, ?_, ?_⟩
  · unfold Memory.read
    simp only []
    rw [if_pos (by omega)]
  · unfold Memory.write
    simp only []
    rw [if_pos (by omega)]
  · unfold Memory.write_diag
    simpa using h

/-- Closed instance of oob_read_write at a concrete out-of-range address. -/
theorem oob_read_write_check :
    ([7, 8] : List Nat).length ≤ (100 : Nat) / 4 ∧
    (Memory.read [7, 8] 100 = 0 ∧
      Memory.write [7, 8] 100 9 allStrobes = [7, 8] ∧
      Memory.write_diag [7, 8] 100 = true) :=
  ⟨by decide, oob_read_write [7, 8] 100 9 allStrobes (by decide)⟩

/-! Lemmas about the word-copy loop of Memory::load_binary. -/

lemma load_words_length (m bytes : List Nat) (base : Nat) :
    ∀ n, (Memory.load_words m bytes base n).length = m.length := by
  intro n
  induction n with
  | zero => rfl
  | succ n ih => simp [Memory.load_words, List.length_set, ih]

lemma load_words_getD_out (m bytes : List Nat) (base : Nat) :
    ∀ n j, j < base ∨ base + n ≤ j →
      (Memory.load_words m bytes base n).getD j 0 = m.getD j 0 := by
  intro n
  induction n with
  | zero => intro j _; rfl
  | succ n ih =>
    intro j hj
    have hne : n + base ≠ j := by omega
    show ((Memory.load_words m bytes base n).set (n + base)
        (Memory.imageWord bytes n)).getD j 0 = m.getD j 0
    rw [List.getD_eq_getElem?_getD, List.getElem?_set_ne hne,
      ← List.getD_eq_getElem?_getD]
    exact ih j (by omega)

lemma load_words_getD_in (m bytes : List Nat) (base : Nat) :
    ∀ n, base + n ≤ m.length → ∀ i, i < n →
      (Memory.load_words m bytes base n).getD (base + i) 0
        = Memory.imageWord bytes i := by
  intro n
  induction n with
  | zero => intro _ i hi; omega
  | succ n ih =>
    intro hn i hi
    show ((Memory.load_words m bytes base n).set (n + base)
        (Memory.imageWord bytes n)).getD (base + i) 0 = _
    by_cases hc : i = n
    · subst hc
      rw [List.getD_eq_getElem?_getD]
      rw [show base + i = i + base by omega]
      rw [List.getElem?_set_self (by rw [load_words_length]; omega)]
      rfl
    · rw [List.getD_eq_getElem?_getD, List.getElem?_set_ne (by omega),
        ← List.getD_eq_getElem?_getD]
      exact ih (by omega) i (by omega)

/-- C6: load_binary fails exactly when the file cannot be opened or when
load_address plus the file size exceeds the byte capacity, and the failure
paths return before touching memory; on success it populates exactly
size/4 words starting at word index load_address/4 with the little-endian
image words, leaves every other word at its prior value, and drops partial
trailing bytes that do not form a complete word. -/
theorem load_binary_spec (m bytes : List Nat) (load_address : Nat) :
    Memory.load_binary m none load_address
      = Except.error Memory.LoadError.could_not_open ∧
    (m.length * 4 < load_address + bytes.length →
      Memory.load_binary m (some bytes) load_address
        = Except.error Memory.LoadError.too_large) ∧
    (load_address + bytes.length ≤ m.length * 4 →
      Memory.load_binary m (some bytes) load_address
        = Except.ok (Memory.load_words m bytes (load_address / 4)
            (bytes.length / 4)) ∧
      (Memory.load_words m bytes (load_address / 4)
          (bytes.length / 4)).length = m.length ∧
      (∀ i, i < bytes.length / 4 →
        (Memory.load_words m bytes (load_address / 4)
            (bytes.length / 4)).getD (load_address / 4 + i) 0
          = Memory.imageWord bytes i) ∧
      (∀ j, j < load_address / 4 ∨ load_address / 4 + bytes.length / 4 ≤ j →
        (Memory.load_words m bytes (load_address / 4)
            (bytes.length / 4)).getD j 0 = m.getD j 0)) := by
  refine ⟨rfl, ?_, ?_⟩
  · intro h
    simp only [Memory.load_binary]
    rw [if_pos (by omega)]
  · intro h
    refine ⟨?_, load_words_length m bytes _ _, ?_, ?_⟩
    · simp only [Memory.load_binary]
      rw [if_neg (by omega)]
    · intro i hi
      exact load_words_getD_in m bytes _ _ (by omega) i hi
    · intro j hj
      exact load_words_getD_out m bytes _ _ j hj

/-- Closed instance of load_binary_spec exercising the oversize failure
and the successful load of one complete word with a trailing byte. -/
theorem load_binary_check :
    (([0, 0, 0] : List Nat).length * 4 < 2 + (List.replicate 11 1).length ∧
      Memory.load_binary [0, 0, 0] (some (List.replicate 11 1)) 2
        = Except.error Memory.LoadError.too_large) ∧
    (4 + ([1, 2, 3, 4, 5] : List Nat).length ≤ ([0, 0, 0] : List Nat).length * 4 ∧
      Memory.load_binary [0, 0, 0] (some [1, 2, 3, 4, 5]) 4
        = Except.ok (Memory.load_words [0, 0, 0] [1, 2, 3, 4, 5] 1 1)) :=
  ⟨⟨by decide, (load_binary_spec [0, 0, 0] (List.replicate 11 1) 2).2.1 (by decide)⟩,
   ⟨by decide, ((load_binary_spec [0, 0, 0] [1, 2, 3, 4, 5] 4).2.2 (by decide)).1⟩⟩

/-! Lemmas about the signature extraction loop. -/

lemma signature_lines_stop (m : List Nat) (e addr : Nat) (h : ¬ addr < e) :
    signature_lines m e addr = [] := by
  rw [signature_lines]
  simp [h]

lemma signature_lines_go (m : List Nat) (e addr : Nat) (h : addr < e) :
    signature_lines m e addr
      = toHex8 (Memory.read m addr) :: signature_lines m e (addr + 4) := by
  rw [signature_lines]
  simp [h]

lemma signature_lines_spec (m : List Nat) (e : Nat) :
    ∀ fuel addr, e ≤ addr + 4 * fuel → 4 ∣ addr → 4 ∣ e →
      (signature_lines m e addr).length = (e - addr) / 4 ∧
      (∀ i, i < (e - addr) / 4 →
        (signature_lines m e addr).getD i ""
          = toHex8 (Memory.read m (addr + 4 * i))) := by
  intro fuel
  induction fuel with
  | zero =>
    intro addr hf _ _
    have hstop : ¬ addr < e := by omega
    rw [signature_lines_stop m e addr hstop]
    exact ⟨by simp; omega, fun i hi => by omega⟩
  | succ fuel ih =>
    intro addr hf ha he
    by_cases h : addr < e
    · rw [signature_lines_go m e addr h]
      obtain ⟨ihlen, ihget⟩ := ih (addr + 4) (by omega) (by omega) he
      have hcount : (e - addr) / 4 = (e - (addr + 4)) / 4 + 1 := by omega
      constructor
      · simp only [List.length_cons, ihlen, hcount]
      · intro i hi
        cases i with
        | zero => simp
        | succ i =>
          show (signature_lines m e (addr + 4)).getD i "" = _
          rw [ihget i (by omega)]
          rw [show addr + 4 + 4 * i = addr + 4 * (i + 1) by omega]
    · rw [signature_lines_stop m e addr h]
      exact ⟨by simp; omega, fun i hi => by omega⟩

/-- Value of each lowercase hexadecimal digit character round-trips. -/
lemma hexCharVal_hexChar (d : Nat) (hd : d < 16) :
    hexCharVal (hexChar d) = d := by
  interval_cases d <;> decide

lemma hexCharVal_hexChar_mod (x : Nat) :
    hexCharVal (hexChar (x % 16)) = x % 16 :=
  hexCharVal_hexChar (x % 16) (Nat.mod_lt x (by norm_num))

/-- C7: signature extraction over a word-aligned half-open range produces
exactly (end - begin) / 4 lines, the line at position i being the 8-digit
lowercase hexadecimal rendering of the word read at address begin + 4i, in
ascending address order; every rendered line has 8 characters and decodes
back to the 32-bit word it came from. -/
theorem signature_spec (m : List Nat) (signature_begin signature_end : Nat)
    (hb : 4 ∣ signature_begin) (he : 4 ∣ signature_end) :
    (generate_signature m signature_begin signature_end).length
      = (signature_end - signature_begin) / 4 ∧
    (∀ i, i < (signature_end - signature_begin) / 4 →
      (generate_signature m signature_begin signature_end).getD i ""
        = toHex8 (Memory.read m (signature_begin + 4 * i))) ∧
    (∀ w, (toHex8 w).length = 8) ∧
    (∀ w, w < 2 ^ 32 → hexVal (toHex8 w) = w) := by
  obtain ⟨h1, h2⟩ :=
    signature_lines_spec m signature_end signature_end signature_begin
      (by omega) hb he
  refine ⟨h1, h2, fun w => rfl, ?_⟩
  intro w hw
  show hexVal (toHex8 w) = w
  simp only [hexVal, toHex8, List.foldl, hexCharVal_hexChar_mod]
  omega

/-- Closed instance of signature_spec on a 2-word aligned range. -/
theorem signature_spec_check :
    ((4 : Nat) ∣ 4 ∧ (4 : Nat) ∣ 12) ∧
    (generate_signature [10, 11, 12] 4 12).length = (12 - 4) / 4 :=
  ⟨⟨by decide, by decide⟩,
    (signature_spec [10, 11, 12] 4 12 (by decide) (by decide)).1⟩

/-! Lemmas about the simulation loop trace. -/

lemma states_succ (cfg : Config) (mem0 : List Nat) (n : Nat) :
    states cfg mem0 (n + 1) = simStep cfg (states cfg mem0 n) := rfl

lemma states_main_time (cfg : Config) (mem0 : List Nat) :
    ∀ n, (states cfg mem0 n).main_time = n := by
  intro n
  induction n with
  | zero => rfl
  | succ n ih => simp [states_succ, simStep, ih]

lemma states_finished (cfg : Config) (mem0 : List Nat) :
    ∀ n, (∀ u, u ≤ n → (cfg.script u).gotFinish = false) →
      (states cfg mem0 n).finished = false := by
  intro n
  induction n with
  | zero => intro h; exact h 0 (by omega)
  | succ n ih =>
    intro h
    rw [states_succ]
    simp only [simStep]
    rw [states_main_time]
    rw [ih (fun u hu => h u (by omega)), h (n + 1) (le_refl _)]
    rfl

lemma runAux_succ (cfg : Config) (fuel : Nat) (s : SimState) :
    runAux cfg (fuel + 1) s =
      if s.main_time < cfg.max_sim_time && !s.finished then
        if (simStep cfg s).halted then simStep cfg s
        else runAux cfg fuel (simStep cfg s)
      else s := rfl

/-- C2: the memory-read results presented as the core inputs at step t are
exactly the results of the Memory reads issued from the core output
addresses at step t-1, and during the first iteration (before any request
has been serviced) both presented values are 0. -/
theorem bus_latency (cfg : Config) (mem0 : List Nat) :
    inputsPresented cfg mem0 1 = (0, 0) ∧
    ∀ t, 2 ≤ t → inputsPresented cfg mem0 t = readsIssued cfg mem0 (t - 1) := by
  constructor
  · rfl
  · intro t ht
    obtain ⟨k, rfl⟩ : ∃ k, t = k + 2 := ⟨t - 2, by omega⟩
    unfold inputsPresented readsIssued
    rw [show k + 2 - 1 = k + 1 by omega, show k + 1 - 1 = k by omega]
    rw [states_succ]
    simp only [simStep]
    rw [states_main_time]

/-- Demo script for closed checks: an idle core reading fixed addresses. -/
def demoOut : CoreOut :=
  { io_instruction_address := 0
    io_memory_bundle_address := 4
    io_memory_bundle_write_enable := false
    io_memory_bundle_write_strobe := ⟨false, false, false, false⟩
    io_memory_bundle_write_data := 0
    gotFinish := false }

/-- Demo configuration with the halt watch disabled. -/
def demoCfg : Config :=
  { script := fun _ => demoOut
    halt_address := 0
    max_sim_time := 5
    tracing := false }

/-- Demo initial memory. -/
def demoMem : List Nat := [10, 11, 12, 13]

/-- Closed instance of bus_latency at step 3 of the demo run. -/
theorem bus_latency_check :
    inputsPresented demoCfg demoMem 1 = (0, 0) ∧
    inputsPresented demoCfg demoMem 3 = readsIssued demoCfg demoMem 2 :=
  ⟨(bus_latency demoCfg demoMem).1,
    (bus_latency demoCfg demoMem).2 3 (by decide)⟩

/-- Time-budget helper: if no reachable step can set the halt flag and the
script never signals finish, the loop spends its whole fuel and exits with
main_time equal to the configured maximum. -/
lemma runAux_time_budget (cfg : Config) (P : SimState → Prop)
    (hstep : ∀ s, P s → P (simStep cfg s))
    (hnohalt : ∀ s, P s → (simStep cfg s).halted = false)
    (hfin : ∀ u, (cfg.script u).gotFinish = false) :
    ∀ fuel s, P s → s.finished = false →
      s.main_time + fuel = cfg.max_sim_time →
      (runAux cfg fuel s).main_time = cfg.max_sim_time := by
  intro fuel
  induction fuel with
  | zero => intro s _ _ ht; simpa using ht
  | succ fuel ih =>
    intro s hP hf ht
    rw [runAux_succ]
    rw [if_pos (by simp [hf]; omega)]
    rw [if_neg (by simp [hnohalt s hP])]
    apply ih (simStep cfg s) (hstep s hP)
    · show (s.finished || (cfg.script (s.main_time + 1)).gotFinish) = false
      rw [hf, hfin]
      rfl
    · show s.main_time + 1 + fuel = cfg.max_sim_time
      omega

/-- C4: with the halt watch disabled and a core that never signals finish,
the loop runs to the time budget and exits with the simulated time counter
equal to the configured maximum. -/
theorem time_budget_termination (cfg : Config) (mem0 : List Nat)
    (hhalt : cfg.halt_address = 0)
    (hfin : ∀ u, (cfg.script u).gotFinish = false) :
    (run cfg mem0).main_time = cfg.max_sim_time := by
  apply runAux_time_budget cfg (fun _ => True) (fun _ _ => trivial)
  · intro s _
    show (decide (cfg.halt_address ≠ 0) && _) = false
    simp [hhalt]
  · exact hfin
  · trivial
  · show (cfg.script 0).gotFinish = false
    exact hfin 0
  · simp [initState]

/-- Closed instance of time_budget_termination on the demo run. -/
theorem time_budget_check :
    (demoCfg.halt_address = 0 ∧ (run demoCfg demoMem).main_time = demoCfg.max_sim_time) :=
  ⟨by decide, time_budget_termination demoCfg demoMem (by decide) (fun u => rfl)⟩

/-- The halted flag of the state after step K is set exactly by the
sentinel test the loop performs after servicing the bus at step K. -/
lemma states_halted_of_sentinel (cfg : Config) (mem0 : List Nat) (K : Nat)
    (hK : 1 ≤ K) (hhalt : cfg.halt_address ≠ 0)
    (hsent : Memory.read (states cfg mem0 K).mem cfg.halt_address
      = HALT_SENTINEL) :
    (states cfg mem0 K).halted = true := by
  obtain ⟨k, rfl⟩ : ∃ k, K = k + 1 := ⟨K - 1, by omega⟩
  rw [states_succ] at hsent ⊢
  simp only [simStep] at hsent ⊢
  simp [hsent, hhalt]

/-- C3: with a nonzero halt watch address, if the watched word equals the
sentinel after the bus has been serviced at step K and at no earlier step,
the loop stops at step K with the halted flag set, for any configured
maximum time greater than K and a core that has not signalled finish. -/
theorem halt_stops_loop (cfg : Config) (mem0 : List Nat) (K : Nat)
    (hK : 1 ≤ K)
    (hhalt : cfg.halt_address ≠ 0)
    (hmax : K < cfg.max_sim_time)
    (hfin : ∀ u, u ≤ K → (cfg.script u).gotFinish = false)
    (hbefore : ∀ j, 1 ≤ j → j < K → (states cfg mem0 j).halted = false)
    (hsent : Memory.read (states cfg mem0 K).mem cfg.halt_address
      = HALT_SENTINEL) :
    (run cfg mem0).main_time = K ∧ (run cfg mem0).halted = true := by
  have hhK : (states cfg mem0 K).halted = true :=
    states_halted_of_sentinel cfg mem0 K hK hhalt hsent
  have key : ∀ fuel i, i < K → K ≤ i + fuel →
      runAux cfg fuel (states cfg mem0 i) = states cfg mem0 K := by
    intro fuel
    induction fuel with
    | zero => intro i h1 h2; omega
    | succ fuel ih =>
      intro i h1 h2
      rw [runAux_succ]
      have hc : ((states cfg mem0 i).main_time < cfg.max_sim_time
          && !(states cfg mem0 i).finished) = true := by
        rw [states_main_time,
          states_finished cfg mem0 i (fun u hu => hfin u (by omega))]
        simp
        omega
      rw [if_pos hc, ← states_succ]
      by_cases hs : (states cfg mem0 (i + 1)).halted = true
      · rw [if_pos hs]
        have hiK : i + 1 = K := by
          by_contra hne
          have hlt : i + 1 < K := by omega
          rw [hbefore (i + 1) (by omega) hlt] at hs
          exact Bool.false_ne_true hs
        rw [hiK]
      · rw [if_neg hs]
        have hiK : i + 1 ≠ K := fun he => hs (he ▸ hhK)
        exact ih (i + 1) (by omega) (by omega)
  have hrun : run cfg mem0 = states cfg mem0 K := by
    unfold run
    exact key cfg.max_sim_time 0 (by omega) (by omega)
  rw [hrun, states_main_time]
  exact ⟨rfl, hhK⟩

/-- Script that writes the halt sentinel to byte address 8. -/
def haltOut : CoreOut :=
  { io_instruction_address := 0
    io_memory_bundle_address := 8
    io_memory_bundle_write_enable := true
    io_memory_bundle_write_strobe := ⟨true, true, true, true⟩
    io_memory_bundle_write_data := 0xBABECAFE
    gotFinish := false }

/-- Demo configuration whose scripted core writes the sentinel at step 3. -/
def haltCfg : Config :=
  { script := fun t => if t = 3 then haltOut else demoOut
    halt_address := 8
    max_sim_time := 10
    tracing := false }

/-- Closed instance of halt_stops_loop: the demo scripted core writes the
sentinel at step 3 and the run stops there with 10 steps of budget. -/
theorem halt_stops_loop_check :
    ((1 : Nat) ≤ 3 ∧ haltCfg.halt_address ≠ 0 ∧ 3 < haltCfg.max_sim_time ∧
      Memory.read (states haltCfg [0, 0, 0, 0] 3).mem haltCfg.halt_address
        = HALT_SENTINEL) ∧
    (run haltCfg [0, 0, 0, 0]).main_time = 3 ∧
    (run haltCfg [0, 0, 0, 0]).halted = true :=
  ⟨⟨by decide, by decide, by decide, by decide⟩,
    halt_stops_loop haltCfg [0, 0, 0, 0] 3 (by decide) (by decide) (by decide)
      (fun u _ => by by_cases h : u = 3 <;> simp [haltCfg, haltOut, demoOut, h])
      (fun j h1 h2 => by interval_cases j <;> decide)
      (by decide)⟩

/-! Length invariants used by the out-of-range halt claim. -/

lemma write_length (m : List Nat) (address value : Nat) (s : Strobe) :
    (Memory.write m address value s).length = m.length := by
  by_cases h : address / 4 ≥ m.length <;>
    simp [Memory.write, h, List.length_set]

lemma read_oob (m : List Nat) (address : Nat) (h : m.length ≤ address / 4) :
    Memory.read m address = 0 := by
  unfold Memory.read
  simp only []
  rw [if_pos (by omega)]

lemma simStep_mem_length (cfg : Config) (s : SimState) :
    (simStep cfg s).mem.length = s.mem.length := by
  simp only [simStep]
  cases hw : (cfg.script (s.main_time + 1)).io_memory_bundle_write_enable <;>
    simp [hw, write_length]

lemma simStep_halted_oob (cfg : Config) (s : SimState)
    (h : s.mem.length ≤ cfg.halt_address / 4) :
    (simStep cfg s).halted = false := by
  have hread : Memory.read (simStep cfg s).mem cfg.halt_address = 0 :=
    read_oob _ _ (by rw [simStep_mem_length]; exact h)
  show (decide (cfg.halt_address ≠ 0)
      && decide (Memory.read (simStep cfg s).mem cfg.halt_address
        = HALT_SENTINEL)) = false
  rw [hread]
  simp [HALT_SENTINEL]

/-- C10: if the halt watch address is nonzero but its word index lies
outside the allocated capacity, the halted flag is false in every
reachable state (the watched read always yields 0, never the sentinel),
so with a core that never signals finish the run continues to the full
time budget. -/
theorem oob_halt_never (cfg : Config) (mem0 : List Nat)
    (_hhalt : cfg.halt_address ≠ 0)
    (hlen : mem0.length ≤ cfg.halt_address / 4) :
    (∀ n, (states cfg mem0 n).halted = false) ∧
    ((∀ u, (cfg.script u).gotFinish = false) →
      (run cfg mem0).main_time = cfg.max_sim_time) := by
  have hmemlen : ∀ n, (states cfg mem0 n).mem.length = mem0.length := by
    intro n
    induction n with
    | zero => rfl
    | succ n ih => rw [states_succ, simStep_mem_length]; exact ih
  constructor
  · intro n
    cases n with
    | zero => rfl
    | succ n =>
      rw [states_succ]
      exact simStep_halted_oob cfg _ (by rw [hmemlen]; exact hlen)
  · intro hfin
    apply runAux_time_budget cfg
      (fun s => s.mem.length ≤ cfg.halt_address / 4)
      (fun s hs => by rw [simStep_mem_length]; exact hs)
      (fun s hs => simStep_halted_oob cfg s hs)
      hfin
    · exact hlen
    · show (cfg.script 0).gotFinish = false
      exact hfin 0
    · simp [initState]

/-- Demo configuration watching a halt address beyond the tiny memory. -/
def oobHaltCfg : Config :=
  { script := fun _ => demoOut
    halt_address := 400
    max_sim_time := 5
    tracing := false }

/-- Closed instance of oob_halt_never on a 2-word memory with the watch
at byte address 400. -/
theorem oob_halt_never_check :
    (oobHaltCfg.halt_address ≠ 0 ∧
      ([0, 0] : List Nat).length ≤ oobHaltCfg.halt_address / 4) ∧
    (states oobHaltCfg [0, 0] 4).halted = false ∧
    (run oobHaltCfg [0, 0]).main_time = oobHaltCfg.max_sim_time :=
  ⟨⟨by decide, by decide⟩,
    (oob_halt_never oobHaltCfg [0, 0] (by decide) (by decide)).1 4,
    (oob_halt_never oobHaltCfg [0, 0] (by decide) (by decide)).2 (fun u => rfl)⟩

/-- Projection of the run state with the VCD log erased. -/
def SimState.eraseVcd (s : SimState) : SimState := { s with vcd := [] }

lemma simStep_eraseVcd (cfg1 cfg2 : Config) (s1 s2 : SimState)
    (hscript : cfg1.script = cfg2.script)
    (hhalt : cfg1.halt_address = cfg2.halt_address)
    (hmax : cfg1.max_sim_time = cfg2.max_sim_time)
    (h : s1.eraseVcd = s2.eraseVcd) :
    (simStep cfg1 s1).eraseVcd = (simStep cfg2 s2).eraseVcd := by
  obtain ⟨m1, t1, c1, r1, d1, i1, f1, h1, v1, p1⟩ := s1
  obtain ⟨m2, t2, c2, r2, d2, i2, f2, h2, v2, p2⟩ := s2
  simp only [SimState.eraseVcd, SimState.mk.injEq, and_true, true_and] at h
  obtain ⟨hm, ht, hc, hr, hd, hi, hf, hh, hp⟩ := h
  subst hm ht hc hr hd hi hf hh hp
  simp [simStep, SimState.eraseVcd, hscript, hhalt, hmax]

lemma runAux_eraseVcd (cfg1 cfg2 : Config)
    (hscript : cfg1.script = cfg2.script)
    (hhalt : cfg1.halt_address = cfg2.halt_address)
    (hmax : cfg1.max_sim_time = cfg2.max_sim_time) :
    ∀ fuel s1 s2, s1.eraseVcd = s2.eraseVcd →
      (runAux cfg1 fuel s1).eraseVcd = (runAux cfg2 fuel s2).eraseVcd := by
  intro fuel
  induction fuel with
  | zero => intro s1 s2 h; exact h
  | succ fuel ih =>
    intro s1 s2 h
    have hstep := simStep_eraseVcd cfg1 cfg2 s1 s2 hscript hhalt hmax h
    have hmt : s1.main_time = s2.main_time := by
      have hx := congrArg SimState.main_time h
      exact hx
    have hfin : s1.finished = s2.finished := by
      have hx := congrArg SimState.finished h
      exact hx
    have hhs : (simStep cfg1 s1).halted = (simStep cfg2 s2).halted := by
      have hx := congrArg SimState.halted hstep
      exact hx
    rw [runAux_succ, runAux_succ, hmt, hfin, hmax]
    by_cases hc : (s2.main_time < cfg2.max_sim_time && !s2.finished) = true
    · rw [if_pos hc, if_pos hc, hhs]
      by_cases hh2 : (simStep cfg2 s2).halted = true
      · rw [if_pos hh2, if_pos hh2]
        exact hstep
      · rw [if_neg hh2, if_neg hh2]
        exact ih _ _ hstep
    · rw [if_neg hc, if_neg hc]
      exact h

/-- C8: for any fixed scripted sequence of core outputs, the run reaches
the same memory contents and the same non-VCD state whether or not the
waveform recorder is enabled. -/
theorem tracing_noninterference (script : Nat → CoreOut)
    (halt_address max_sim_time : Nat) (mem0 : List Nat) :
    (run ⟨script, halt_address, max_sim_time, true⟩ mem0).mem
      = (run ⟨script, halt_address, max_sim_time, false⟩ mem0).mem ∧
    (run ⟨script, halt_address, max_sim_time, true⟩ mem0).eraseVcd
      = (run ⟨script, halt_address, max_sim_time, false⟩ mem0).eraseVcd := by
  have h : (run ⟨script, halt_address, max_sim_time, true⟩ mem0).eraseVcd
      = (run ⟨script, halt_address, max_sim_time, false⟩ mem0).eraseVcd := by
    unfold run
    apply runAux_eraseVcd ⟨script, halt_address, max_sim_time, true⟩
      ⟨script, halt_address, max_sim_time, false⟩ rfl rfl rfl
    simp [initState, SimState.eraseVcd]
  have hmem := congrArg SimState.mem h
  exact ⟨hmem, h⟩

/-- C9: the progress condition used by the loop holds at every multiple of
one tenth of the configured maximum time, holds only when that maximum
exceeds 10, and the progress log has no effect on any other component of
the step. -/
theorem progress_observational (cfg : Config) (s : SimState) :
    (∀ max_sim_time k, 10 < max_sim_time → 1 ≤ k →
      progressCond max_sim_time (k * (max_sim_time / 10)) = true) ∧
    (∀ max_sim_time t, max_sim_time ≤ 10 →
      progressCond max_sim_time t = false) ∧
    (∀ p,
      (simStep cfg { s with progress := p }).mem = (simStep cfg s).mem ∧
      (simStep cfg { s with progress := p }).main_time
        = (simStep cfg s).main_time ∧
      (simStep cfg { s with progress := p }).halted = (simStep cfg s).halted ∧
      (simStep cfg { s with progress := p }).finished
        = (simStep cfg s).finished ∧
      (simStep cfg { s with progress := p }).data_memory_read_word
        = (simStep cfg s).data_memory_read_word ∧
      (simStep cfg { s with progress := p }).inst_memory_read_word
        = (simStep cfg s).inst_memory_read_word ∧
      (simStep cfg { s with progress := p }).vcd = (simStep cfg s).vcd) := by
  refine ⟨?_, ?_, ?_⟩
  · intro M k hM hk
    simp only [progressCond, Bool.and_eq_true, decide_eq_true_eq]
    refine ⟨⟨?_, hM⟩, Nat.mul_mod_left k _⟩
    exact Nat.mul_pos (by omega) (by omega)
  · intro M t hM
    have h10 : ¬ M > 10 := by omega
    simp [progressCond, h10]
  · intro p
    exact ⟨rfl, rfl, rfl, rfl, rfl, rfl, rfl⟩

/-- Closed instance of progress_observational: a boundary of a budget of
20 steps, a budget of 10 steps never reporting, and the progress log not
feeding back into the memory state. -/
theorem progress_observational_check :
    ((10 : Nat) < 20 ∧ (1 : Nat) ≤ 2 ∧
      progressCond 20 (2 * (20 / 10)) = true) ∧
    ((10 : Nat) ≤ 10 ∧ progressCond 10 7 = false) ∧
    (simStep demoCfg { initState demoCfg demoMem with progress := [9] }).mem
      = (simStep demoCfg (initState demoCfg demoMem)).mem :=
  ⟨⟨by decide, by decide,
      (progress_observational demoCfg (initState demoCfg demoMem)).1 20 2
        (by decide) (by decide)⟩,
   ⟨by decide,
      (progress_observational demoCfg (initState demoCfg demoMem)).2.1 10 7
        (by decide)⟩,
   ((progress_observational demoCfg (initState demoCfg demoMem)).2.2 [9]).1⟩

end MyCPU
